import Mathlib

/-!
Shallow embedding of the extraction pipeline of `src/app.py`
(`extract_images_from_pdf`): the Layout Collector (lines 55-62), the
Reading-Order Sequencer (lines 64-88) and the Extraction Filter
(lines 90-113), together with theorems about the properties stated in the
specification.

Page coordinates are modelled as integers (the properties at stake are
order-theoretic); machine floats play no role in any comparison other than
through their linear order.  Python's stable `list.sort(key=...)` is
modelled by insertion sort with a non-strict key comparison, which realizes
the same stable order.  The fallible external calls of the `try` block
(`fitz.Pixmap(doc, xref)`, `fitz.Pixmap(fitz.csRGB, pix)`,
`pix.tobytes("png")`) are modelled by an oracle `ImageJob` recording, per
`xref`, whether each call succeeds and what pixmap the decode yields.
-/

/-- One placed embedded image on one page: the dictionary
`{'y': y, 'x': x, 'xref': xref}` built on line 62 of `src/app.py` from the
first placement rectangle's top-left corner. -/
structure ImageRef where
  y : ℤ
  x : ℤ
  xref : ℕ
deriving DecidableEq

/-- The key order used by `images_on_page.sort(key=lambda k: k['y'])` (line 65). -/
def yle (a b : ImageRef) : Prop := a.y ≤ b.y

/-- The key order used by `current_row.sort(key=lambda k: k['x'])` (lines 81, 87). -/
def xle (a b : ImageRef) : Prop := a.x ≤ b.x

instance : DecidableRel yle := fun a b => inferInstanceAs (Decidable (a.y ≤ b.y))

instance : DecidableRel xle := fun a b => inferInstanceAs (Decidable (a.x ≤ b.x))

instance : IsTotal ImageRef yle := ⟨fun a b => Int.le_total a.y b.y⟩

instance : IsTrans ImageRef yle := ⟨fun _ _ _ h h2 => le_trans h h2⟩

instance : IsTotal ImageRef xle := ⟨fun a b => Int.le_total a.x b.x⟩

instance : IsTrans ImageRef xle := ⟨fun _ _ _ h h2 => le_trans h h2⟩

/-- Stable sort by `y`, line 65 (`images_on_page.sort(key=lambda k: k['y'])`). -/
def sortByY (l : List ImageRef) : List ImageRef := List.insertionSort yle l

/-- Stable sort by `x`, lines 81 and 87 (`current_row.sort(key=lambda k: k['x'])`). -/
def sortByX (l : List ImageRef) : List ImageRef := List.insertionSort xle l

/-- The row-grouping loop of the Reading-Order Sequencer, lines 70-88 of
`src/app.py`.  `last` is `current_row[-1]`; `rowRev` holds the remaining
members of `current_row` in reverse, so the current row reads
`(last :: rowRev).reverse`.  When an element falls outside tolerance the
current row is sorted by `x` and emitted, and a new row starts. -/
def buildRows (tol : ℤ) : ImageRef → List ImageRef → List ImageRef → List (List ImageRef)
  | last, rowRev, [] => [sortByX (last :: rowRev).reverse]
  | last, rowRev, img :: rest =>
    if |img.y - last.y| < tol then
      buildRows tol img (last :: rowRev) rest
    else
      sortByX (last :: rowRev).reverse :: buildRows tol img [] rest

/-- The Reading-Order Sequencer for one page (lines 64-88), kept as a list of
rows before flattening: sort by `y`, then group greedily into rows. -/
def readingRows (tol : ℤ) (l : List ImageRef) : List (List ImageRef) :=
  match sortByY l with
  | [] => []
  | a :: rest => buildRows tol a [] rest

/-- `sorted_final` (lines 68-88): the flattened page-ordered sequence the
Extraction Filter consumes. -/
def sorted_final (tol : ℤ) (l : List ImageRef) : List ImageRef :=
  (readingRows tol l).flatten

/-- Colorspaces a pixmap can carry in this model. -/
inductive CS where
  | gray
  | rgb
  | cmyk
deriving DecidableEq

/-- Number of colour components excluding alpha (1 for gray, 3 for RGB,
4 for CMYK). -/
def CS.channels : CS → ℕ
  | gray => 1
  | rgb => 3
  | cmyk => 4

/-- Model of a `fitz.Pixmap`: colorspace, alpha channel count (0 or 1) and
pixel dimensions. -/
structure Pixmap where
  cs : CS
  alpha : ℕ
  width : ℕ
  height : ℕ
deriving DecidableEq

/-- `pix.n`: the component count including alpha. -/
def Pixmap.n (p : Pixmap) : ℕ := p.cs.channels + p.alpha

/-- `fitz.Pixmap(fitz.csRGB, pix)`: colorspace conversion to RGB, keeping the
alpha channel and the pixel dimensions. -/
def convertRGB (p : Pixmap) : Pixmap := { p with cs := CS.rgb }

/-- Lines 97-98 of `src/app.py`:
`if pix.n - pix.alpha < 3: pix = fitz.Pixmap(fitz.csRGB, pix)`. -/
def colorNormalize (p : Pixmap) : Pixmap :=
  if p.n - p.alpha < 3 then convertRGB p else p

/-- The outcome, for one `xref`, of the fallible external calls inside the
`try` block: `decode = none` models `fitz.Pixmap(doc, xref)` raising,
`convertOk = false` models `fitz.Pixmap(fitz.csRGB, pix)` raising, and
`encodeOk = false` models `pix.tobytes("png")` raising. -/
structure ImageJob where
  decode : Option Pixmap
  convertOk : Bool
  encodeOk : Bool
deriving DecidableEq

/-- One appended `(filename, img_bytes)` pair of line 109, with the payload
kept as the post-conversion pixmap whose PNG encoding it is, and the
filename kept as its two numeric components `global_count` and
`page_index + 1`. -/
structure ExtractedImage where
  seq : ℕ
  page : ℕ
  pix : Pixmap
deriving DecidableEq

/-- Zero-padding of `f"{n:03d}"`. -/
def pad3 (k : ℕ) : String :=
  if k < 10 then "00" ++ toString k
  else if k < 100 then "0" ++ toString k
  else toString k

/-- Line 108: `f"img_{global_count:03d}_page{page_index+1}.png"`. -/
def ExtractedImage.filename (i : ExtractedImage) : String :=
  "img_" ++ pad3 i.seq ++ "_page" ++ toString i.page ++ ".png"

/-- Lines 93-113: processing of a single `img_data` inside the
`try`/`except`.  Returns the updated `global_count` and the appended image,
if any.  A Python exception leaves already-performed mutations in place, so
an encode failure raised after `global_count += 1` (line 102) still returns
the incremented counter, with nothing appended. -/
def processImage (minW minH page c : ℕ) (job : ImageJob) : ℕ × Option ExtractedImage :=
  match job.decode with
  | none => (c, none)
  | some pix0 =>
    if pix0.n - pix0.alpha < 3 ∧ job.convertOk = false then (c, none)
    else
      let pix := colorNormalize pix0
      if pix.width ≥ minW ∧ pix.height ≥ minH then
        (c + 1, if job.encodeOk then some ⟨c + 1, page, pix⟩ else none)
      else (c, none)

/-- Whether one image's job reaches the body of the size check on line 101:
it decodes, its conversion (when required by line 97) succeeds, and the
post-conversion dimensions meet both inclusive bounds.  Exactly these jobs
make line 102 increment `global_count`. -/
def passesGate (minW minH : ℕ) (job : ImageJob) : Bool :=
  match job.decode with
  | none => false
  | some pix0 =>
    (!(decide (pix0.n - pix0.alpha < 3)) || job.convertOk) &&
      decide ((colorNormalize pix0).width ≥ minW) &&
      decide ((colorNormalize pix0).height ≥ minH)

/-- Whether one image's job raises somewhere in the `try` block of lines
93-113: decode failure, required conversion failure, or encode failure
(which is only reached when the size gate passes). -/
def jobFails (minW minH : ℕ) (job : ImageJob) : Bool :=
  match job.decode with
  | none => true
  | some pix0 =>
    (decide (pix0.n - pix0.alpha < 3) && !job.convertOk) ||
      (passesGate minW minH job && !job.encodeOk)

/-- The loop of lines 91-113 over the page-ordered sequence, threading
`global_count`.  `doc` maps an `xref` to that image's decode, convert and
encode outcome, modelling the document handle. -/
def extractLoop (doc : ℕ → ImageJob) (minW minH page : ℕ) :
    List ImageRef → ℕ → List ExtractedImage × ℕ
  | [], c => ([], c)
  | r :: rs, c =>
    let step := processImage minW minH page c (doc r.xref)
    let rest := extractLoop doc minW minH page rs step.1
    match step.2 with
    | some img => (img :: rest.1, rest.2)
    | none => rest

/-- One page of the pipeline, lines 51-113: sequence the collected refs,
then extract.  `page` is the 1-based page number used in filenames. -/
def extractPage (doc : ℕ → ImageJob) (minW minH : ℕ) (tol : ℤ) (page : ℕ)
    (refs : List ImageRef) (c : ℕ) : List ExtractedImage × ℕ :=
  extractLoop doc minW minH page (sorted_final tol refs) c

/-- The page loop of lines 46-115; `i` is the 0-based `page_index` of the
next page, and each page's results are appended to the shared list. -/
def extractPages (doc : ℕ → ImageJob) (minW minH : ℕ) (tol : ℤ) :
    ℕ → List (List ImageRef) → ℕ → List ExtractedImage × ℕ
  | _, [], c => ([], c)
  | i, refs :: pgs, c =>
    let step := extractPage doc minW minH tol (i + 1) refs c
    let rest := extractPages doc minW minH tol (i + 1) pgs step.2
    (step.1 ++ rest.1, rest.2)

/-- `extract_images_from_pdf` (lines 35-115), with the pages given as the
per-page collected `ImageRef` lists and the document handle as the job
oracle; returns `extracted_images`. -/
def extract_images_from_pdf (doc : ℕ → ImageJob) (minW minH : ℕ) (tol : ℤ)
    (pages : List (List ImageRef)) : List ExtractedImage :=
  (extractPages doc minW minH tol 0 pages 0).1

/-- A placement rectangle's top-left corner, as read on lines 60-61. -/
structure Rect where
  x0 : ℤ
  y0 : ℤ
deriving DecidableEq

/-- The Layout Collector, lines 55-62: for each `xref` of the page's image
list, keep the first placement rectangle's top-left corner, skipping images
with no rectangle. -/
def collectPage (rects : ℕ → List Rect) (imageList : List ℕ) : List ImageRef :=
  imageList.filterMap fun xref =>
    match rects xref with
    | [] => none
    | rct :: _ => some ⟨rct.y0, rct.x0, xref⟩

/-- The relation between rows compared by the y-scan: every member of the
earlier row lies at or above every member of the later row. -/
def rowLE (R S : List ImageRef) : Prop := ∀ a ∈ R, ∀ b ∈ S, a.y ≤ b.y

/-- The part of an extracted image that is independent of the shared
counter: its page tag and its pixel payload. -/
def proj (im : ExtractedImage) : ℕ × Pixmap := (im.page, im.pix)

/-- The job oracle of the witness for the error-isolation theorem: `xref` 7
fails to decode, every other `xref` decodes to a plain 200 by 200 RGB
pixmap and converts and encodes fine. -/
def docW : ℕ → ImageJob := fun xref =>
  if xref = 7 then ⟨none, true, true⟩ else ⟨some ⟨CS.rgb, 0, 200, 200⟩, true, true⟩

/-! ### Helper lemmas about the single-image Extraction Filter step -/

theorem passesGate_decode_some (minW minH : ℕ) (job : ImageJob) (p : Pixmap)
    (h : job.decode = some p) :
    passesGate minW minH job = true ↔
      ((p.n - p.alpha < 3 → job.convertOk = true) ∧
        (colorNormalize p).width ≥ minW ∧ (colorNormalize p).height ≥ minH) := by
  simp only [passesGate, h]
  by_cases h1 : p.n - p.alpha < 3 <;>
    cases hc : job.convertOk <;>
    simp [h1, hc]

theorem processImage_fst (minW minH page c : ℕ) (job : ImageJob) :
    (processImage minW minH page c job).1 =
      if passesGate minW minH job then c + 1 else c := by
  cases hd : job.decode with
  | none => simp [processImage, passesGate, hd]
  | some p =>
    simp only [processImage, hd]
    by_cases h1 : p.n - p.alpha < 3 <;>
      cases hc : job.convertOk <;>
      by_cases h4 : (colorNormalize p).width ≥ minW <;>
      by_cases h5 : (colorNormalize p).height ≥ minH <;>
      simp [h1, hc, h4, h5, passesGate_decode_some minW minH job p hd]

theorem processImage_snd_ne_none_iff (minW minH page c : ℕ) (job : ImageJob) :
    (processImage minW minH page c job).2 ≠ none ↔
      passesGate minW minH job = true ∧ job.encodeOk = true := by
  cases hd : job.decode with
  | none => simp [processImage, passesGate, hd]
  | some p =>
    simp only [processImage, hd]
    by_cases h1 : p.n - p.alpha < 3 <;>
      cases hc : job.convertOk <;>
      cases he : job.encodeOk <;>
      by_cases h4 : (colorNormalize p).width ≥ minW <;>
      by_cases h5 : (colorNormalize p).height ≥ minH <;>
      simp [h1, hc, he, h4, h5, passesGate_decode_some minW minH job p hd]

theorem processImage_emit (minW minH page c : ℕ) (job : ImageJob) (img : ExtractedImage)
    (h : (processImage minW minH page c job).2 = some img) :
    img.seq = c + 1 ∧ img.page = page ∧
      img.pix.width ≥ minW ∧ img.pix.height ≥ minH ∧
      (processImage minW minH page c job).1 = c + 1 := by
  cases hd : job.decode with
  | none => simp [processImage, hd] at h
  | some p =>
    simp only [processImage, hd] at h ⊢
    by_cases h1 : p.n - p.alpha < 3 <;>
      cases hc : job.convertOk <;>
      cases he : job.encodeOk <;>
      by_cases h4 : (colorNormalize p).width ≥ minW <;>
      by_cases h5 : (colorNormalize p).height ≥ minH <;>
      simp [h1, hc, he, h4, h5] at h ⊢ <;>
      simp [← h, h4, h5]

/-! ### Tolerance zero (claim C1) -/

theorem buildRows_zero_singleton (rest : List ImageRef) :
    ∀ (last : ImageRef) (row : List ImageRef),
      row ∈ buildRows 0 last [] rest → ∃ r, row = [r] := by
  induction rest with
  | nil =>
    intro last row h
    simp only [buildRows, List.mem_singleton] at h
    exact ⟨last, by simpa [sortByX] using h⟩
  | cons img rest ih =>
    intro last row h
    have hneg : ¬ |img.y - last.y| < 0 := not_lt.mpr (abs_nonneg _)
    simp only [buildRows, if_neg hneg, List.mem_cons] at h
    rcases h with h | h
    · exact ⟨last, by simpa [sortByX] using h⟩
    · exact ih img row h

/-- Claim C1 (counterexample): with `row_tolerance = 0`, two images with
bit-identical `y = 5` are not kept in one row: the strict comparison
`abs(y - y) < 0` on line 77 is false, so the code splits them into two
singleton rows instead of one row sorted by `x`. -/
theorem zero_tolerance_identical_y_split :
    readingRows 0 [⟨5, 10, 1⟩, ⟨5, 3, 2⟩] = [[⟨5, 10, 1⟩], [⟨5, 3, 2⟩]] ∧
    ¬ ∃ row ∈ readingRows 0 [⟨5, 10, 1⟩, ⟨5, 3, 2⟩],
        (⟨5, 10, 1⟩ : ImageRef) ∈ row ∧ (⟨5, 3, 2⟩ : ImageRef) ∈ row := by
  decide

/-- Claim C1 (amended): when `row_tolerance` is 0, every image starts its
own row with no exception — even images with bit-identical `y` are split,
because `abs(y - y) < 0` is false; every row the Sequencer returns is a
singleton. -/
theorem zero_tolerance_rows_singleton (l row : List ImageRef)
    (h : row ∈ readingRows 0 l) : ∃ r, row = [r] := by
  unfold readingRows at h
  cases hs : sortByY l with
  | nil => rw [hs] at h; simp at h
  | cons a rest =>
    rw [hs] at h
    exact buildRows_zero_singleton rest a row h

theorem zero_tolerance_rows_singleton_witness :
    ∃ r, ([⟨5, 3, 2⟩] : List ImageRef) = [r] :=
  zero_tolerance_rows_singleton [⟨5, 10, 1⟩, ⟨5, 3, 2⟩] [⟨5, 3, 2⟩] (by decide)

/-! ### Colour-space normalization (claim C2) -/

/-- Claim C2 (code bug): a CMYK pixmap has `n - alpha = 4`, so the guard
`pix.n - pix.alpha < 3` of line 97 does not fire and — contrary to the
code's own comment `Convert CMYK/Grayscale to RGB` on line 96 and to the
spec — the pixmap reaches the encode step of line 105 still in CMYK; if its
PNG encoding succeeds the emitted payload is CMYK. -/
theorem cmyk_pixmap_not_normalized :
    colorNormalize ⟨CS.cmyk, 0, 200, 200⟩ = ⟨CS.cmyk, 0, 200, 200⟩ ∧
    (processImage 100 100 1 0 ⟨some ⟨CS.cmyk, 0, 200, 200⟩, true, true⟩).2 =
      some ⟨1, 1, ⟨CS.cmyk, 0, 200, 200⟩⟩ := by
  decide

/-! ### Counter atomicity (claim C3) -/

/-- Claim C3 (counterexample): an encode failure after the size gate leaves
the counter advanced (0 becomes 1) while no image is appended, so the
counter is not "unchanged on any failure". -/
theorem counter_advances_on_encode_failure :
    processImage 100 100 1 0 ⟨some ⟨CS.rgb, 0, 200, 200⟩, true, false⟩ = (1, none) := by
  decide

/-- Claim C3 (amended): line 102 increments the counter exactly when the
image decodes, any required conversion succeeds, and the size gate passes;
an image is appended exactly when additionally the PNG encode succeeds.
Hence decode, conversion and size failures leave the counter unchanged, but
an encode failure — raised after line 102 — advances it with nothing
appended. -/
theorem counter_increment_iff_gate (minW minH page c : ℕ) (job : ImageJob) :
    (processImage minW minH page c job).1 =
      (if passesGate minW minH job then c + 1 else c) ∧
    ((processImage minW minH page c job).2 ≠ none ↔
      passesGate minW minH job = true ∧ job.encodeOk = true) :=
  ⟨processImage_fst minW minH page c job,
    processImage_snd_ne_none_iff minW minH page c job⟩

/-! ### Size filter (claim C4) -/

/-- Claim C4 (counterexample): a successfully decoded 200 by 200 RGB pixmap
meets both bounds of 100, yet no image is emitted because its PNG encode
fails — emission is not equivalent to passing the size bounds. -/
theorem size_pass_but_no_emission :
    (processImage 100 100 1 0 ⟨some ⟨CS.rgb, 0, 200, 200⟩, true, false⟩).2 = none ∧
    (colorNormalize ⟨CS.rgb, 0, 200, 200⟩).width ≥ 100 ∧
    (colorNormalize ⟨CS.rgb, 0, 200, 200⟩).height ≥ 100 := by
  decide

/-- Claim C4 (amended): for an image whose pixmap decodes, an
`ExtractedImage` is emitted iff any required colour conversion succeeds,
the post-conversion dimensions meet both inclusive bounds, and the PNG
encode succeeds; every emitted image meets both bounds; and an image
failing either bound is dropped silently, with the counter and the output
unchanged. -/
theorem size_filter_characterization (minW minH page c : ℕ) (job : ImageJob)
    (p : Pixmap) (h : job.decode = some p) :
    ((processImage minW minH page c job).2 ≠ none ↔
      ((p.n - p.alpha < 3 → job.convertOk = true) ∧
        (colorNormalize p).width ≥ minW ∧ (colorNormalize p).height ≥ minH ∧
        job.encodeOk = true)) ∧
    (∀ img, (processImage minW minH page c job).2 = some img →
      img.pix.width ≥ minW ∧ img.pix.height ≥ minH) ∧
    (¬ ((colorNormalize p).width ≥ minW ∧ (colorNormalize p).height ≥ minH) →
      processImage minW minH page c job = (c, none)) := by
  refine ⟨?_, ?_, ?_⟩
  · rw [processImage_snd_ne_none_iff minW minH page c job,
      passesGate_decode_some minW minH job p h]
    tauto
  · intro img himg
    exact ⟨(processImage_emit minW minH page c job img himg).2.2.1,
      (processImage_emit minW minH page c job img himg).2.2.2.1⟩
  · intro hsz
    simp only [processImage, h]
    by_cases h1 : p.n - p.alpha < 3 <;>
      cases hc : job.convertOk <;>
      simp [h1, hc, hsz]

theorem size_filter_characterization_witness :
    (((processImage 100 100 1 0 ⟨some ⟨CS.rgb, 0, 200, 200⟩, true, true⟩).2 ≠ none ↔
      (((⟨CS.rgb, 0, 200, 200⟩ : Pixmap).n - (⟨CS.rgb, 0, 200, 200⟩ : Pixmap).alpha < 3 →
          (⟨some ⟨CS.rgb, 0, 200, 200⟩, true, true⟩ : ImageJob).convertOk = true) ∧
        (colorNormalize ⟨CS.rgb, 0, 200, 200⟩).width ≥ 100 ∧
        (colorNormalize ⟨CS.rgb, 0, 200, 200⟩).height ≥ 100 ∧
        (⟨some ⟨CS.rgb, 0, 200, 200⟩, true, true⟩ : ImageJob).encodeOk = true)) ∧
    (∀ img, (processImage 100 100 1 0 ⟨some ⟨CS.rgb, 0, 200, 200⟩, true, true⟩).2 = some img →
      img.pix.width ≥ 100 ∧ img.pix.height ≥ 100) ∧
    (¬ ((colorNormalize ⟨CS.rgb, 0, 200, 200⟩).width ≥ 100 ∧
        (colorNormalize ⟨CS.rgb, 0, 200, 200⟩).height ≥ 100) →
      processImage 100 100 1 0 ⟨some ⟨CS.rgb, 0, 200, 200⟩, true, true⟩ = (0, none))) :=
  size_filter_characterization 100 100 1 0 ⟨some ⟨CS.rgb, 0, 200, 200⟩, true, true⟩
    ⟨CS.rgb, 0, 200, 200⟩ rfl

/-! ### Sequencer structure lemmas -/

theorem sortByY_perm (l : List ImageRef) : (sortByY l).Perm l :=
  List.perm_insertionSort yle l

theorem sortByX_perm (l : List ImageRef) : (sortByX l).Perm l :=
  List.perm_insertionSort xle l

theorem sortByY_sorted (l : List ImageRef) : (sortByY l).Sorted yle :=
  List.sorted_insertionSort yle l

theorem sortByX_sorted (l : List ImageRef) : (sortByX l).Sorted xle :=
  List.sorted_insertionSort xle l

theorem buildRows_flatten_perm (tol : ℤ) (rest : List ImageRef) :
    ∀ (last : ImageRef) (rowRev : List ImageRef),
      ((buildRows tol last rowRev rest).flatten).Perm ((last :: rowRev) ++ rest) := by
  induction rest with
  | nil =>
    intro last rowRev
    simp only [buildRows, List.flatten, List.append_nil]
    exact (sortByX_perm _).trans (List.reverse_perm _)
  | cons img rest ih =>
    intro last rowRev
    simp only [buildRows]
    by_cases hc : |img.y - last.y| < tol
    · rw [if_pos hc]
      exact (ih img (last :: rowRev)).trans List.perm_middle.symm
    · rw [if_neg hc]
      rw [List.flatten_cons]
      exact ((sortByX_perm _).trans (List.reverse_perm _)).append (ih img [])

/-! ### Completeness of the Sequencer (claim C5) -/

/-- Claim C5: the Reading-Order Sequencer returns a permutation of its
input — every collected image appears exactly once in `sorted_final`. -/
theorem sequencer_output_perm (tol : ℤ) (l : List ImageRef) :
    (sorted_final tol l).Perm l := by
  unfold sorted_final readingRows
  cases hs : sortByY l with
  | nil =>
    have := sortByY_perm l
    rw [hs] at this
    rw [← this.nil_eq]
    rfl
  | cons a rest =>
    have hp := sortByY_perm l
    rw [hs] at hp
    exact (buildRows_flatten_perm tol rest a []).trans hp

/-! ### Row-internal order (claim C6) -/

theorem mem_buildRows_eq_sortByX (tol : ℤ) (rest : List ImageRef) :
    ∀ (last : ImageRef) (rowRev row : List ImageRef),
      row ∈ buildRows tol last rowRev rest → ∃ s, row = sortByX s := by
  induction rest with
  | nil =>
    intro last rowRev row h
    simp only [buildRows, List.mem_singleton] at h
    exact ⟨(last :: rowRev).reverse, h⟩
  | cons img rest ih =>
    intro last rowRev row h
    simp only [buildRows] at h
    by_cases hc : |img.y - last.y| < tol
    · rw [if_pos hc] at h
      exact ih img (last :: rowRev) row h
    · rw [if_neg hc, List.mem_cons] at h
      rcases h with h | h
      · exact ⟨(last :: rowRev).reverse, h⟩
      · exact ih img [] row h

/-- Claim C6: within any row returned by the Reading-Order Sequencer, the
`x` coordinates of consecutive members are non-decreasing — every finalized
row is sorted by `x` ascending before being appended. -/
theorem row_x_nondecreasing (tol : ℤ) (l row : List ImageRef)
    (h : row ∈ readingRows tol l) : row.Chain' xle := by
  have hx : ∃ s, row = sortByX s := by
    unfold readingRows at h
    cases hs : sortByY l with
    | nil => rw [hs] at h; simp at h
    | cons a rest =>
      rw [hs] at h
      exact mem_buildRows_eq_sortByX tol rest a [] row h
  obtain ⟨s, rfl⟩ := hx
  exact List.Pairwise.chain' (sortByX_sorted s)

theorem row_x_nondecreasing_witness :
    List.Chain' xle [(⟨12, 10, 2⟩ : ImageRef), ⟨10, 50, 1⟩] :=
  row_x_nondecreasing 10 [⟨10, 50, 1⟩, ⟨12, 10, 2⟩] [⟨12, 10, 2⟩, ⟨10, 50, 1⟩]
    (by decide)

/-! ### Row-to-row order (claim C7) -/

theorem buildRows_pairwise_rowLE (tol : ℤ) (rest : List ImageRef) :
    ∀ (last : ImageRef) (rowRev : List ImageRef),
      rest.Sorted yle →
      (∀ a ∈ last :: rowRev, ∀ b ∈ rest, a.y ≤ b.y) →
      (buildRows tol last rowRev rest).Pairwise rowLE := by
  induction rest with
  | nil =>
    intro last rowRev _ _
    simp [buildRows]
  | cons img rest ih =>
    intro last rowRev hs hall
    rw [List.sorted_cons] at hs
    obtain ⟨himg, hs⟩ := hs
    simp only [buildRows]
    by_cases hc : |img.y - last.y| < tol
    · rw [if_pos hc]
      refine ih img (last :: rowRev) hs fun a ha b hb => ?_
      rcases List.mem_cons.mp ha with rfl | ha
      · exact himg b hb
      · exact hall a ha b (List.mem_cons_of_mem img hb)
    · rw [if_neg hc]
      refine List.Pairwise.cons ?_ (ih img [] hs ?_)
      · intro S hS a ha b hb
        have hb2 : b ∈ (buildRows tol img [] rest).flatten :=
          List.mem_flatten.mpr ⟨S, hS, hb⟩
        have hb3 : b ∈ (img :: ([] : List ImageRef)) ++ rest :=
          (buildRows_flatten_perm tol rest img []).mem_iff.mp hb2
        have ha2 : a ∈ last :: rowRev := by
          have := (sortByX_perm (last :: rowRev).reverse).mem_iff.mp ha
          exact List.mem_reverse.mp this
        exact hall a ha2 b hb3
      · intro a ha b hb
        rcases List.mem_cons.mp ha with rfl | ha
        · exact himg b hb
        · exact absurd ha (List.not_mem_nil a)

/-- Claim C7: the rows of the Reading-Order Sequencer appear in
non-decreasing `y` order — for every pair of consecutive rows, every member
of the earlier row has `y` at most the `y` of every member of the later
row; in particular the first member's `y` is non-decreasing from row to
row. -/
theorem rows_y_nondecreasing (tol : ℤ) (l : List ImageRef) :
    (readingRows tol l).Chain' rowLE := by
  unfold readingRows
  cases hs : sortByY l with
  | nil => simp
  | cons a rest =>
    have hsort := sortByY_sorted l
    rw [hs, List.sorted_cons] at hsort
    refine List.Pairwise.chain'
      (buildRows_pairwise_rowLE tol rest a [] hsort.2 ?_)
    intro p hp b hb
    rcases List.mem_cons.mp hp with rfl | hp
    · exact hsort.1 b hb
    · exact absurd hp (List.not_mem_nil p)

/-! ### Counter threading through the loops (claims C8, C10) -/

theorem extractLoop_spec (doc : ℕ → ImageJob) (minW minH page : ℕ)
    (rs : List ImageRef) :
    ∀ c : ℕ,
      c ≤ (extractLoop doc minW minH page rs c).2 ∧
      (∀ img ∈ (extractLoop doc minW minH page rs c).1,
        c < img.seq ∧ img.seq ≤ (extractLoop doc minW minH page rs c).2 ∧
          img.page = page ∧ img.pix.width ≥ minW ∧ img.pix.height ≥ minH) ∧
      ((extractLoop doc minW minH page rs c).1.map ExtractedImage.seq).Sorted
        (fun a b => a < b) := by
  induction rs with
  | nil => intro c; simp [extractLoop]
  | cons r rs ih =>
    intro c
    simp only [extractLoop]
    have hfst : c ≤ (processImage minW minH page c (doc r.xref)).1 := by
      rw [processImage_fst]; split <;> omega
    cases hstep : (processImage minW minH page c (doc r.xref)).2 with
    | none =>
      obtain ⟨ih1, ih2, ih3⟩ := ih ((processImage minW minH page c (doc r.xref)).1)
      refine ⟨le_trans hfst ih1, ?_, ih3⟩
      intro img himg
      obtain ⟨h1, h2, h3⟩ := ih2 img himg
      exact ⟨lt_of_le_of_lt hfst h1, h2, h3⟩
    | some img =>
      obtain ⟨hseq, hpage, hw, hh, hfst1⟩ :=
        processImage_emit minW minH page c (doc r.xref) img hstep
      obtain ⟨ih1, ih2, ih3⟩ := ih ((processImage minW minH page c (doc r.xref)).1)
      refine ⟨le_trans hfst ih1, ?_, ?_⟩
      · intro im him
        rcases List.mem_cons.mp him with rfl | him
        · refine ⟨by omega, ?_, hpage, hw, hh⟩
          rw [hseq, ← hfst1]
          exact ih1
        · obtain ⟨h1, h2, h3⟩ := ih2 im him
          exact ⟨lt_of_le_of_lt hfst h1, h2, h3⟩
      · rw [List.map_cons, List.sorted_cons]
        refine ⟨?_, ih3⟩
        intro b hb
        rcases List.mem_map.mp hb with ⟨im, him, rfl⟩
        have h1 := (ih2 im him).1
        omega

theorem pairwise_page_const {L : List ExtractedImage} {p : ℕ}
    (h : ∀ im ∈ L, im.page = p) :
    (L.map ExtractedImage.page).Sorted (fun a b => a ≤ b) := by
  induction L with
  | nil => simp
  | cons im L ih =>
    rw [List.map_cons, List.sorted_cons]
    refine ⟨?_, ih fun im2 him2 => h im2 (List.mem_cons_of_mem _ him2)⟩
    intro b hb
    rcases List.mem_map.mp hb with ⟨im2, him2, rfl⟩
    rw [h im (List.mem_cons_self _ _), h im2 (List.mem_cons_of_mem _ him2)]

theorem extractPages_spec (doc : ℕ → ImageJob) (minW minH : ℕ) (tol : ℤ)
    (pgs : List (List ImageRef)) :
    ∀ i c : ℕ,
      c ≤ (extractPages doc minW minH tol i pgs c).2 ∧
      (∀ img ∈ (extractPages doc minW minH tol i pgs c).1,
        c < img.seq ∧ img.seq ≤ (extractPages doc minW minH tol i pgs c).2 ∧
          i < img.page) ∧
      ((extractPages doc minW minH tol i pgs c).1.map ExtractedImage.seq).Sorted
        (fun a b => a < b) ∧
      ((extractPages doc minW minH tol i pgs c).1.map ExtractedImage.page).Sorted
        (fun a b => a ≤ b) := by
  induction pgs with
  | nil => intro i c; simp [extractPages]
  | cons refs pgs ih =>
    intro i c
    simp only [extractPages, extractPage]
    obtain ⟨l1, l2, l3⟩ :=
      extractLoop_spec doc minW minH (i + 1) (sorted_final tol refs) c
    obtain ⟨p1, p2, p3, p4⟩ :=
      ih (i + 1) ((extractLoop doc minW minH (i + 1) (sorted_final tol refs) c).2)
    refine ⟨le_trans l1 p1, ?_, ?_, ?_⟩
    · intro img himg
      rcases List.mem_append.mp himg with himg | himg
      · obtain ⟨h1, h2, h3, _⟩ := l2 img himg
        exact ⟨h1, le_trans h2 p1, by omega⟩
      · obtain ⟨h1, h2, h3⟩ := p2 img himg
        exact ⟨lt_of_le_of_lt l1 h1, h2, by omega⟩
    · rw [List.map_append]
      refine List.pairwise_append.mpr ⟨l3, p3, ?_⟩
      intro a ha b hb
      rcases List.mem_map.mp ha with ⟨ia, hia, rfl⟩
      rcases List.mem_map.mp hb with ⟨ib, hib, rfl⟩
      have h2 := (l2 ia hia).2.1
      have h1 := (p2 ib hib).1
      omega
    · rw [List.map_append]
      refine List.pairwise_append.mpr
        ⟨pairwise_page_const fun im him => (l2 im him).2.2.1, p4, ?_⟩
      intro a ha b hb
      rcases List.mem_map.mp ha with ⟨ia, hia, rfl⟩
      rcases List.mem_map.mp hb with ⟨ib, hib, rfl⟩
      have h2 := (l2 ia hia).2.2.1
      have h1 := (p2 ib hib).2.2
      omega

/-- Claim C8: across the whole document, the `global_count` values embedded
in the emitted filenames are strictly increasing in emission order, hence
unique document-wide. -/
theorem filename_seq_strict_mono (doc : ℕ → ImageJob) (minW minH : ℕ) (tol : ℤ)
    (pages : List (List ImageRef)) :
    ((extract_images_from_pdf doc minW minH tol pages).map ExtractedImage.seq).Sorted
      (fun a b => a < b) :=
  (extractPages_spec doc minW minH tol pages 0 0).2.2.1

/-- Claim C10: pages are processed strictly in document order into one
shared result list, so the 1-based page numbers embedded in the emitted
filenames are non-decreasing along the output — every image of page `k`
precedes every image of any later page. -/
theorem output_pages_nondecreasing (doc : ℕ → ImageJob) (minW minH : ℕ) (tol : ℤ)
    (pages : List (List ImageRef)) :
    ((extract_images_from_pdf doc minW minH tol pages).map ExtractedImage.page).Sorted
      (fun a b => a ≤ b) :=
  (extractPages_spec doc minW minH tol pages 0 0).2.2.2

/-! ### Per-image error isolation (claim C9) -/

theorem jobFails_skip (minW minH page c : ℕ) (job : ImageJob)
    (h : jobFails minW minH job = true) :
    (processImage minW minH page c job).2 = none := by
  cases hd : job.decode with
  | none => simp [processImage, hd]
  | some p =>
    rw [jobFails, hd] at h
    simp only [processImage, hd]
    by_cases h1 : p.n - p.alpha < 3 <;>
      cases hc : job.convertOk <;>
      cases he : job.encodeOk <;>
      by_cases h4 : (colorNormalize p).width ≥ minW <;>
      by_cases h5 : (colorNormalize p).height ≥ minH <;>
      simp [passesGate, hd, h1, hc, he, h4, h5] at h ⊢

theorem processImage_snd_proj (minW minH page c c2 : ℕ) (job : ImageJob) :
    ((processImage minW minH page c job).2).map proj =
      ((processImage minW minH page c2 job).2).map proj := by
  cases hd : job.decode with
  | none => simp [processImage, hd]
  | some p =>
    simp only [processImage, hd]
    by_cases h1 : p.n - p.alpha < 3 <;>
      cases hc : job.convertOk <;>
      cases he : job.encodeOk <;>
      by_cases h4 : (colorNormalize p).width ≥ minW <;>
      by_cases h5 : (colorNormalize p).height ≥ minH <;>
      simp [h1, hc, he, h4, h5, proj]

theorem extractLoop_map_proj_counter (doc : ℕ → ImageJob) (minW minH page : ℕ)
    (rs : List ImageRef) :
    ∀ c c2 : ℕ,
      (extractLoop doc minW minH page rs c).1.map proj =
        (extractLoop doc minW minH page rs c2).1.map proj := by
  induction rs with
  | nil => intro c c2; rfl
  | cons r rs ih =>
    intro c c2
    simp only [extractLoop]
    have hp := processImage_snd_proj minW minH page c c2 (doc r.xref)
    cases h1 : (processImage minW minH page c (doc r.xref)).2 with
    | none =>
      cases h2 : (processImage minW minH page c2 (doc r.xref)).2 with
      | none => exact ih _ _
      | some imb => rw [h1, h2] at hp; simp at hp
    | some ima =>
      cases h2 : (processImage minW minH page c2 (doc r.xref)).2 with
      | none => rw [h1, h2] at hp; simp at hp
      | some imb =>
        rw [h1, h2] at hp
        simp only [Option.map_some'] at hp
        rw [Option.some.injEq] at hp
        simp only [List.map_cons]
        rw [hp, ih ((processImage minW minH page c (doc r.xref)).1)
          ((processImage minW minH page c2 (doc r.xref)).1)]

/-- Claim C9: a decode, colour-space conversion, or encode failure for one
image is caught by the `except` of line 112 and only that image is skipped:
the emitted stream — compared by page tag and pixel payload, the parts
independent of the shared counter — equals the stream of the same run with
the failing reference removed, so the siblings and the rest of the document
are still processed; and the failing image itself contributes nothing. -/
theorem per_image_failure_isolated (doc : ℕ → ImageJob) (minW minH page : ℕ)
    (pre post : List ImageRef) (b : ImageRef) (c : ℕ)
    (h : jobFails minW minH (doc b.xref) = true) :
    (extractLoop doc minW minH page (pre ++ b :: post) c).1.map proj =
      (extractLoop doc minW minH page (pre ++ post) c).1.map proj ∧
    (processImage minW minH page c (doc b.xref)).2 = none := by
  refine ⟨?_, jobFails_skip minW minH page c (doc b.xref) h⟩
  induction pre generalizing c with
  | nil =>
    simp only [List.nil_append, extractLoop]
    rw [jobFails_skip minW minH page c (doc b.xref) h]
    exact extractLoop_map_proj_counter doc minW minH page post _ c
  | cons r pre ih =>
    simp only [List.cons_append, extractLoop]
    cases hstep : (processImage minW minH page c (doc r.xref)).2 with
    | none => exact ih _
    | some img =>
      simp only [List.map_cons]
      exact congrArg (List.cons (proj img))
        (ih ((processImage minW minH page c (doc r.xref)).1))

theorem per_image_failure_isolated_witness :
    (extractLoop docW 100 100 1
        ([⟨0, 0, 1⟩] ++ (⟨0, 0, 7⟩ : ImageRef) :: [⟨0, 0, 2⟩]) 0).1.map proj =
      (extractLoop docW 100 100 1 ([⟨0, 0, 1⟩] ++ [⟨0, 0, 2⟩]) 0).1.map proj ∧
    (processImage 100 100 1 0 (docW (⟨0, 0, 7⟩ : ImageRef).xref)).2 = none :=
  per_image_failure_isolated docW 100 100 1 [⟨0, 0, 1⟩] [⟨0, 0, 2⟩] ⟨0, 0, 7⟩ 0
    (by decide)
